import Mathlib

/-!
Verification of the directory-listing core (src/dir.cc) of gitstatus.

The fast (linux) path of ListDir is embedded as a function over the stream of
SYS_getdents64 results: each successful call writes a packed sequence of
linux_dirent64 records into a fresh 8 KiB arena buffer and returns their total
byte count, a failing call returns a negative count, and the stream ends with
a call returning 0. A char pointer pushed into the output vector is modelled
as the list of bytes it points at, from the first byte of the name to the end
of the 8 KiB allocation. The portable (posix) path is embedded over the stream
of readdir results. The case-insensitive comparator and StrSort live in
string_cmp.h, which is not part of the given source; they are modelled from
the specification where marked.
-/

namespace Gitstatus

/-- A byte of kernel-written or arena memory. -/
abbrev Byte := Fin 256

/-- Little-endian value of a byte list: the first byte is least significant. -/
def leVal : List Byte → Nat
  | [] => 0
  | b :: bs => b.val + 256 * leVal bs

/-- Read64 from the source: memcpy the 8 bytes at the pointer into a uint64_t,
which on the little-endian host yields their little-endian value. -/
def read64 (buf : List Byte) : Nat := leVal (buf.take 8)

/-- The 8 base-256 digits of a 64-bit value, least significant first. -/
def toBytes8 (x : Nat) : List Byte :=
  (List.range 8).map (fun i => (Fin.ofNat (x / 256 ^ i) : Byte))

/-- The builtin bswap64: reverse the byte order of a 64-bit value. -/
def bswap64 (x : Nat) : Nat := leVal (toBytes8 x).reverse

/-- Write64 from the source: overwrite the 8 bytes at the pointer with the
little-endian bytes of x. -/
def write64 (x : Nat) (buf : List Byte) : List Byte := toBytes8 x ++ buf.drop 8

/-- One step of SwapBytes: Write64(bswap64(Read64(p)), p). -/
def swap8 (buf : List Byte) : List Byte := write64 (bswap64 (read64 buf)) buf

/-- SwapBytes from the source: byte-swap the 8-byte head of every entry in the
range, in place. -/
def SwapBytes (es : List (List Byte)) : List (List Byte) := es.map swap8

/-- Strict byte-wise lexicographic order on byte lists. On lists of equal
length this is memcmp returning a negative value; on NUL-free name lists it is
strcmp returning a negative value. -/
def lexLtB : List Byte → List Byte → Bool
  | _, [] => false
  | [], _ :: _ => true
  | a :: as, b :: bs => decide (a.val < b.val) || (a == b && lexLtB as bs)

/-- Byte at offset i past a pointer. The model returns 0 past the end of the
modelled buffer; the source only reads within its allocation, and every claim
that looks past index 0 is settled under well-formedness bounds that keep all
such reads inside the modelled bytes. -/
def byteAt (buf : List Byte) (i : Nat) : Nat :=
  match buf[i]? with
  | some b => b.val
  | none => 0

/-- Dots from the source: does the NUL-terminated string at the pointer spell
"." or ".."? (46 is the byte value of the dot.) -/
def Dots (p : List Byte) : Bool :=
  byteAt p 0 == 46 && (byteAt p 1 == 0 || (byteAt p 1 == 46 && byteAt p 2 == 0))

/-- The name a returned char pointer denotes: its bytes up to the first NUL. -/
def nameOf (buf : List Byte) : List Byte := buf.takeWhile (fun b => decide (b ≠ 0))

/-- One linux_dirent64 record as the kernel writes it: 16 bytes of d_ino and
d_off (opaque to ListDir), the record length d_reclen, the type tag d_type,
the NUL-terminated name d_name, and alignment padding filling the record up to
d_reclen bytes. -/
structure DirEnt where
  misc : List Byte
  d_reclen : Nat
  d_type : Byte
  d_name : List Byte
  pad : List Byte
deriving DecidableEq

/-- The raw bytes of one record: the 16 ino/off bytes, the two d_reclen bytes
(little endian), d_type, the name, its NUL terminator, and the padding. -/
def serializeEnt (e : DirEnt) : List Byte :=
  e.misc ++ [(Fin.ofNat e.d_reclen : Byte), (Fin.ofNat (e.d_reclen / 256) : Byte)] ++
    [e.d_type] ++ e.d_name ++ 0 :: e.pad

/-- The 8 KiB buffer contents after one successful read: the packed records the
kernel wrote, followed by the untouched arena bytes g. -/
def chunkBuf : List DirEnt → List Byte → List Byte
  | [], g => g
  | e :: rest, g => serializeEnt e ++ chunkBuf rest g

/-- Byte count returned by SYS_getdents64: records are packed, so it is the sum
of their d_reclen fields. -/
def chunkSize (recs : List DirEnt) : Nat := (recs.map DirEnt.d_reclen).sum

/-- The inner loop of the fast path: the cursor starts at 0 and advances by
each record's d_reclen, which under the kernel ABI lands exactly on the next
packed record, until the returned byte count is exhausted; for each record the
pointer to its d_name field (19 bytes into the record) is pushed unless the
name spells "." or "..". A pushed pointer is modelled as the buffer suffix it
points at: the name, its NUL, the record's padding, and everything after the
record inside the same 8 KiB allocation. -/
def chunkEntries : List DirEnt → List Byte → List (List Byte)
  | [], _ => []
  | e :: rest, g =>
      (if Dots (e.d_name ++ 0 :: (e.pad ++ chunkBuf rest g)) then []
       else [e.d_name ++ 0 :: (e.pad ++ chunkBuf rest g)]) ++ chunkEntries rest g

/-- Result of one SYS_getdents64 call: a negative return (fail), or records
written into the fresh 8 KiB arena buffer whose remaining bytes are garbage.
The listing loop's stream of calls is modelled as a list; the call after the
list's end returns 0. -/
inductive ReadResult where
  | fail : ReadResult
  | chunk (recs : List DirEnt) (garbage : List Byte) : ReadResult

/-- The fast path's read loop: request blocks until a call returns 0, on a
negative return clear everything read so far and fail, and otherwise scan the
returned block and issue another request. -/
def readAll : List ReadResult → List (List Byte) → Option (List (List Byte))
  | [], acc => some acc
  | ReadResult.fail :: _, _ => none
  | ReadResult.chunk recs g :: rest, acc =>
      if chunkSize recs = 0 then some acc
      else readAll rest (acc ++ chunkEntries recs g)

/-- All entry pointers of a stream, in discovery order. -/
def allEntries (reads : List ReadResult) : List (List Byte) :=
  reads.flatMap fun r =>
    match r with
    | ReadResult.fail => []
    | ReadResult.chunk recs g => chunkEntries recs g

/-- All record names of a stream, in discovery order, dots included. -/
def allNames (reads : List ReadResult) : List (List Byte) :=
  reads.flatMap fun r =>
    match r with
    | ReadResult.fail => []
    | ReadResult.chunk recs _ => recs.map DirEnt.d_name

/-- Kernel ABI well-formedness of one record: the name is nonempty, at most
255 bytes and NUL-free; d_ino and d_off occupy 16 bytes; d_reclen is the real
record length (19 header bytes, the name, its NUL, the padding) and is a
multiple of 8, since the kernel 8-aligns records, which the struct cast in the
source relies on. -/
def wfEnt (e : DirEnt) : Bool :=
  decide (e.misc.length = 16) && decide (1 ≤ e.d_name.length) &&
    decide (e.d_name.length ≤ 255) && e.d_name.all (fun b => decide (b ≠ 0)) &&
    decide (e.d_reclen = 19 + e.d_name.length + 1 + e.pad.length) &&
    decide (e.d_reclen % 8 = 0)

/-- Well-formedness of one successful read: at least one record, the kernel
wrote at most the requested kBufSize - 256 = 7936 bytes, and the written
records plus the untouched rest fill exactly the 8 KiB allocation. -/
def wfChunk (recs : List DirEnt) (g : List Byte) : Bool :=
  decide (recs ≠ []) && recs.all wfEnt && decide (chunkSize recs ≤ 8192 - 256) &&
    decide (chunkSize recs + g.length = 8192)

/-- Kernel ABI well-formedness of a whole stream. -/
def wfReads (reads : List ReadResult) : Bool :=
  reads.all fun r =>
    match r with
    | ReadResult.fail => true
    | ReadResult.chunk recs g => wfChunk recs g

/-- The comparison lambda inside SortEntries with kCaseSensitive = true:
compare the (already byte-swapped) first words numerically, on equality fall
back to memcmp(a + 5, b + 5, 256). -/
def fastLtB (a b : List Byte) : Bool :=
  decide (read64 a < read64 b) ||
    (decide (read64 a = read64 b) && lexLtB ((a.drop 5).take 256) ((b.drop 5).take 256))

/-- SortEntries with kCaseSensitive = true: swap the 8-byte heads in place,
sort with the word comparator, swap the heads back. A call of std::sort with a
strict comparator lt leaves the range ordered by the non-strict complement, so
the sort itself is modelled as mergeSort with that complement. -/
def SortEntriesTrue (es : List (List Byte)) : List (List Byte) :=
  SwapBytes ((SwapBytes es).mergeSort fun a b => !fastLtB b a)

/-- Modelled from the spec: the external comparator machinery of string_cmp.h
(StrLt, StrSort) is not under the given source. The spec describes the
case-insensitive comparison as locale-independent and byte-wise up to case;
it is modelled as byte-wise comparison after mapping the ASCII uppercase
letters (values 65 through 90) to lowercase. -/
def lowerByte (b : Byte) : Byte :=
  if 65 ≤ b.val ∧ b.val ≤ 90 then (Fin.ofNat (b.val + 32) : Byte) else b

/-- Modelled from the spec: StrLt with case sensitivity off compares the
NUL-terminated names at the two pointers case-insensitively. -/
def strLtCi (a b : List Byte) : Bool :=
  lexLtB ((nameOf a).map lowerByte) ((nameOf b).map lowerByte)

/-- SortEntries with kCaseSensitive = false: std::sort with the external
comparator StrLt. -/
def SortEntriesFalse (es : List (List Byte)) : List (List Byte) :=
  es.mergeSort fun a b => !strLtCi b a

/-- The fast-path ListDir: clear the output vector, drain the read loop (on a
negative read the vector is cleared again and the call reports failure), then
sort with the comparator selected by case_sensitive. The returned pair is the
boolean result together with the output vector's final contents. -/
def ListDir (reads : List ReadResult) (case_sensitive : Bool) :
    Bool × List (List Byte) :=
  match readAll reads [] with
  | none => (false, [])
  | some entries =>
      (true, if case_sensitive then SortEntriesTrue entries else SortEntriesFalse entries)

/-- One observation of the portable path's readdir loop: either a dirent (type
tag and NUL-terminated name) or NULL with errno set. The list's end is NULL
with errno still 0, the clean end of the stream. -/
inductive PosixEvent where
  | entry (d_type : Byte) (name : List Byte) : PosixEvent
  | readFail : PosixEvent

/-- The portable path's read loop: skip "." and "..", copy d_type and the name
into a fresh arena slot of len + 2 bytes, and push the pointer to the second
byte, where the name starts. The pushed pointer is modelled as what it points
at: the name followed by its NUL. -/
def readPosixLoop : List PosixEvent → List (List Byte) → Option (List (List Byte))
  | [], acc => some acc
  | PosixEvent.readFail :: _, _ => none
  | PosixEvent.entry _ name :: rest, acc =>
      if Dots (name ++ [0]) then readPosixLoop rest acc
      else readPosixLoop rest (acc ++ [name ++ [0]])

/-- Modelled from the spec: StrLt with case sensitivity on (string_cmp.h, not
under the given source) is plain byte-wise comparison of the NUL-terminated
names. -/
def strLtCs (a b : List Byte) : Bool := lexLtB (nameOf a) (nameOf b)

/-- Modelled from the spec: StrSort (string_cmp.h, not under the given source)
sorts the range with StrLt of the requested case sensitivity. -/
def StrSort (es : List (List Byte)) (case_sensitive : Bool) : List (List Byte) :=
  if case_sensitive then es.mergeSort (fun a b => !strLtCs b a)
  else es.mergeSort (fun a b => !strLtCi b a)

/-- C++ conversion of an int to bool: nonzero converts to true. The portable
path's statement return -1 in a function whose return type is bool goes
through this conversion. -/
def boolOfInt (i : Int) : Bool := decide (i ≠ 0)

/-- Observable outcome of one portable-path call: the boolean the caller sees,
the output vector's final contents, and whether the duplicated descriptor has
been closed by the time the call returns. -/
structure PosixResult where
  ret : Bool
  entries : List (List Byte)
  dupClosed : Bool
deriving DecidableEq

/-- The portable-path ListDir: dup the handle (a dup failure aborts the whole
process through VERIFY and so never returns), call fdopendir on the duplicate;
if that fails, close the duplicate and execute the statement return -1, with
its int-to-bool conversion. Otherwise clear the vector and read all entries
(the scope guard closes the stream and with it the duplicate on every exit
path), clearing the vector and failing if errno was set by the failing read,
else handing the vector to StrSort. The argument prior is the output vector's
content on entry: the loop path clears it, the fdopendir failure path returns
before the clear. -/
def listDirPosix (fdopendirOk : Bool) (events : List PosixEvent)
    (prior : List (List Byte)) (case_sensitive : Bool) : PosixResult :=
  if fdopendirOk = false then
    { ret := boolOfInt (-1), entries := prior, dupClosed := true }
  else
    match readPosixLoop events [] with
    | none => { ret := false, entries := [], dupClosed := true }
    | some es => { ret := true, entries := StrSort es case_sensitive, dupClosed := true }

/-- File-descriptor operations a listing call can perform on the system. -/
inductive FdOp where
  | dup (fd : Nat) : FdOp
  | close (fd : Nat) : FdOp
  | getdents (fd : Nat) : FdOp
deriving DecidableEq

/-- The descriptor operations the fast path performs, in order: one
SYS_getdents64 on the supplied descriptor per loop iteration, including the
final call that returns 0 and the failing call, and nothing else. The linux
branch of the source contains no dup and no close. -/
def listDirLinuxTrace (fd : Nat) : List ReadResult → List FdOp
  | [] => [FdOp.getdents fd]
  | ReadResult.fail :: _ => [FdOp.getdents fd]
  | ReadResult.chunk recs _ :: rest =>
      if chunkSize recs = 0 then [FdOp.getdents fd]
      else FdOp.getdents fd :: listDirLinuxTrace fd rest

/-- A name, as opposed to a pointer: spells "." or ".." (46 is the dot). -/
def DotsName (n : List Byte) : Bool :=
  match n with
  | [c] => c == 46
  | [c1, c2] => c1 == 46 && c2 == 46
  | _ => false

/-- The layout facts the fast-path comparator needs about one pushed pointer:
the NUL-terminated name is at most 255 bytes (the kernel limit on d_name), and
at least 261 readable bytes follow the pointer inside its allocation (8 for
Read64, 5 + 256 for the memcmp fallback). Well-formed streams guarantee both. -/
def validBuf (buf : List Byte) : Bool :=
  decide ((nameOf buf).length ≤ 255) && decide (261 ≤ buf.length)

/-- Every call in the stream returned a positive byte count, that is, the
stream contains no error and no terminating zero-size result. -/
def allChunksPositive (reads : List ReadResult) : Bool :=
  reads.all fun r =>
    match r with
    | ReadResult.fail => false
    | ReadResult.chunk recs _ => decide (0 < chunkSize recs)

/-- Every pointer any chunk of the stream would push has at least 8 readable
bytes, so the 8-byte swaps are length-preserving involutions on it. -/
def entriesMin8 (reads : List ReadResult) : Bool :=
  reads.all fun r =>
    match r with
    | ReadResult.fail => true
    | ReadResult.chunk recs g =>
        (chunkEntries recs g).all fun e => decide (8 ≤ e.length)

/-! Order-theoretic facts about byte-wise lexicographic comparison. -/

theorem lexLtB_nil_right (a : List Byte) : lexLtB a [] = false := by
  cases a <;> rfl

theorem lexLtB_irrefl (a : List Byte) : lexLtB a a = false := by
  induction a with
  | nil => rfl
  | cons x xs ih => simp [lexLtB, ih]

theorem lexLtB_cons (x : Byte) (as : List Byte) (y : Byte) (bs : List Byte) :
    lexLtB (x :: as) (y :: bs) =
      (decide (x.val < y.val) || (x == y && lexLtB as bs)) := rfl

theorem lexLtB_asymm : ∀ {a b : List Byte}, lexLtB a b = true → lexLtB b a = false
  | [], [], h => by simp [lexLtB] at h
  | [], _ :: _, _ => lexLtB_nil_right _
  | _ :: _, [], h => by rw [lexLtB_nil_right] at h; exact absurd h (by simp)
  | x :: xs, y :: ys, h => by
      rw [lexLtB_cons] at h ⊢
      simp only [Bool.or_eq_true, Bool.and_eq_true, decide_eq_true_eq, beq_iff_eq] at h
      rcases h with h | ⟨rfl, h⟩
      · have h1 : decide (y.val < x.val) = false := by simp; omega
        have h2 : (y == x) = false := by
          simp only [beq_eq_false_iff_ne, ne_eq]
          intro he; rw [he] at h; exact Nat.lt_irrefl _ h
        rw [h1, h2]; rfl
      · have h1 : decide (x.val < x.val) = false := by simp
        rw [h1, beq_self_eq_true, lexLtB_asymm h]; rfl

theorem lexLtB_trans : ∀ {a b c : List Byte},
    lexLtB a b = true → lexLtB b c = true → lexLtB a c = true
  | _, _, [], _, h2 => by rw [lexLtB_nil_right] at h2; exact absurd h2 (by simp)
  | _, [], _, h1, _ => by rw [lexLtB_nil_right] at h1; exact absurd h1 (by simp)
  | [], _ :: _, _ :: _, _, _ => rfl
  | x :: xs, y :: ys, z :: zs, h1, h2 => by
      simp only [lexLtB, Bool.or_eq_true, Bool.and_eq_true, decide_eq_true_eq,
        beq_iff_eq] at h1 h2 ⊢
      rcases h1 with h1 | ⟨rfl, h1⟩
      · rcases h2 with h2 | ⟨rfl, _⟩
        · exact Or.inl (by omega)
        · exact Or.inl h1
      · rcases h2 with h2 | ⟨rfl, h2⟩
        · exact Or.inl h2
        · exact Or.inr ⟨rfl, lexLtB_trans h1 h2⟩

theorem lexLtB_connex : ∀ {a b : List Byte},
    lexLtB a b = false → lexLtB b a = false → a = b
  | [], [], _, _ => rfl
  | [], _ :: _, h1, _ => by simp [lexLtB] at h1
  | _ :: _, [], _, h2 => by simp [lexLtB] at h2
  | x :: xs, y :: ys, h1, h2 => by
      simp only [lexLtB, Bool.or_eq_false_iff, Bool.and_eq_false_iff,
        decide_eq_false_iff_not, beq_eq_false_iff_ne, ne_eq] at h1 h2
      obtain ⟨hxy, h1⟩ := h1
      obtain ⟨hyx, h2⟩ := h2
      have hxyv : x = y := by
        have := x.isLt; have := y.isLt
        exact Fin.ext (by omega)
      subst hxyv
      rcases h1 with h1 | h1
      · exact absurd rfl h1
      · rcases h2 with h2 | h2
        · exact absurd rfl h2
        · exact congrArg (x :: ·) (lexLtB_connex h1 h2)

theorem lexLtB_append_eqlen : ∀ {p q : List Byte}, p.length = q.length →
    ∀ (u v : List Byte),
    lexLtB (p ++ u) (q ++ v) = (lexLtB p q || (p == q && lexLtB u v))
  | [], [], _, u, v => by simp [lexLtB]
  | [], _ :: _, h, _, _ => by simp at h
  | _ :: _, [], h, _, _ => by simp at h
  | x :: xs, y :: ys, h, u, v => by
      simp only [List.length_cons, Nat.add_right_cancel_iff] at h
      rw [List.cons_append, List.cons_append, lexLtB_cons, lexLtB_cons,
        lexLtB_append_eqlen h u v, List.cons_beq_cons,
        Bool.and_or_distrib_left, ← Bool.and_assoc, ← Bool.or_assoc]

/-! Little-endian values, digit recovery and the byte-swap helpers. -/

theorem leVal_lt (bs : List Byte) : leVal bs < 256 ^ bs.length := by
  induction bs with
  | nil => simp [leVal]
  | cons b rest ih =>
      have := b.isLt
      simp only [leVal, List.length_cons, pow_succ]
      calc b.val + 256 * leVal rest < 256 + 256 * leVal rest := by omega
        _ = 256 * (leVal rest + 1) := by ring
        _ ≤ 256 * 256 ^ rest.length := by
              exact Nat.mul_le_mul_left 256 (by omega)
        _ = 256 ^ rest.length * 256 := by ring

theorem leVal_append (u v : List Byte) :
    leVal (u ++ v) = leVal u + 256 ^ u.length * leVal v := by
  induction u with
  | nil => simp [leVal]
  | cons x xs ih =>
      rw [List.cons_append]
      show x.val + 256 * leVal (xs ++ v) =
        (x.val + 256 * leVal xs) + 256 ^ (xs.length + 1) * leVal v
      rw [ih, pow_succ]
      ring

theorem leVal_snoc (xs : List Byte) (x : Byte) :
    leVal (xs ++ [x]) = leVal xs + 256 ^ xs.length * x.val := by
  rw [leVal_append]
  simp [leVal]

theorem leVal_inj : ∀ {u v : List Byte}, u.length = v.length →
    leVal u = leVal v → u = v
  | [], [], _, _ => rfl
  | [], _ :: _, h, _ => by simp at h
  | _ :: _, [], h, _ => by simp at h
  | x :: xs, y :: ys, h, hv => by
      simp only [List.length_cons, Nat.add_right_cancel_iff] at h
      simp only [leVal] at hv
      have hx := x.isLt; have hy := y.isLt
      have hxy : x.val = y.val := by omega
      have htl : leVal xs = leVal ys := by omega
      rw [Fin.ext hxy, leVal_inj h htl]

theorem digit_lt_iff {A B C x y : Nat} (hA : A < C) (hB : B < C) :
    A + C * x < B + C * y ↔ (x < y ∨ (x = y ∧ A < B)) := by
  constructor
  · intro h
    rcases Nat.lt_trichotomy x y with hxy | hxy | hxy
    · exact Or.inl hxy
    · exact Or.inr ⟨hxy, by subst hxy; omega⟩
    · exfalso
      have h1 : C * (y + 1) ≤ C * x := Nat.mul_le_mul_left C (by omega)
      have h2 : C * (y + 1) = C * y + C := by ring
      omega
  · rintro (hxy | ⟨rfl, h⟩)
    · have h1 : C * (x + 1) ≤ C * y := Nat.mul_le_mul_left C (by omega)
      have h2 : C * (x + 1) = C * x + C := by ring
      omega
    · omega

theorem leVal_rev_lt_iff : ∀ {u v : List Byte}, u.length = v.length →
    (leVal u.reverse < leVal v.reverse ↔ lexLtB u v = true)
  | [], [], _ => by simp [leVal, lexLtB]
  | [], _ :: _, h => by simp at h
  | _ :: _, [], h => by simp at h
  | x :: xs, y :: ys, h => by
      simp only [List.length_cons, Nat.add_right_cancel_iff] at h
      rw [List.reverse_cons, List.reverse_cons, leVal_snoc, leVal_snoc,
        List.length_reverse, List.length_reverse, h]
      rw [digit_lt_iff
        (show leVal xs.reverse < 256 ^ ys.length by simpa [h] using leVal_lt xs.reverse)
        (show leVal ys.reverse < 256 ^ ys.length by simpa using leVal_lt ys.reverse)]
      simp only [lexLtB, Bool.or_eq_true, Bool.and_eq_true, decide_eq_true_eq,
        beq_iff_eq]
      constructor
      · rintro (hlt | ⟨hv, hlt⟩)
        · exact Or.inl hlt
        · exact Or.inr ⟨Fin.ext hv, (leVal_rev_lt_iff h).mp hlt⟩
      · rintro (hlt | ⟨rfl, hlt⟩)
        · exact Or.inl hlt
        · exact Or.inr ⟨rfl, (leVal_rev_lt_iff h).mpr hlt⟩

theorem leVal_rev_eq_iff {u v : List Byte} (h : u.length = v.length) :
    (leVal u.reverse = leVal v.reverse ↔ u = v) := by
  constructor
  · intro hv
    have := leVal_inj (by simp [h]) hv
    simpa using congrArg List.reverse this
  · rintro rfl; rfl

theorem val_ofNat256 (x : Nat) : (Fin.ofNat x : Byte).val = x % 256 := rfl

theorem toBytes8_length (x : Nat) : (toBytes8 x).length = 8 := by
  simp [toBytes8]

theorem leVal_div_mod : ∀ (bs : List Byte) (i : Nat) (h : i < bs.length),
    leVal bs / 256 ^ i % 256 = (bs.get ⟨i, h⟩).val
  | [], i, h => by simp at h
  | b :: rest, 0, _ => by
      have := b.isLt
      simp only [leVal, pow_zero, Nat.div_one, List.get]
      rw [Nat.add_mul_mod_self_left, Nat.mod_eq_of_lt this]
  | b :: rest, i + 1, h => by
      simp only [List.length_cons, Nat.add_lt_add_iff_right] at h
      have hb := b.isLt
      simp only [leVal, List.get]
      rw [pow_succ, mul_comm (256 ^ i) 256, ← Nat.div_div_eq_div_mul,
        Nat.add_mul_div_left _ _ (by norm_num : 0 < 256),
        Nat.div_eq_of_lt hb, Nat.zero_add]
      exact leVal_div_mod rest i h

theorem toBytes8_leVal (bs : List Byte) (h : bs.length = 8) :
    toBytes8 (leVal bs) = bs := by
  apply List.ext_getElem
  · simp [toBytes8, h]
  · intro i h1 h2
    simp only [toBytes8, List.getElem_map, List.getElem_range]
    apply Fin.ext
    rw [val_ofNat256]
    have hi : i < bs.length := h2
    rw [leVal_div_mod bs i hi]
    simp [List.get]

theorem swap8_eq (buf : List Byte) (h : 8 ≤ buf.length) :
    swap8 buf = (buf.take 8).reverse ++ buf.drop 8 := by
  have hlen : (buf.take 8).length = 8 := by simp [Nat.min_eq_left h]
  have hrev : (buf.take 8).reverse.length = 8 := by simp [hlen]
  unfold swap8 write64 bswap64 read64
  rw [toBytes8_leVal _ hlen, toBytes8_leVal _ hrev]

theorem swap8_length (buf : List Byte) (h : 8 ≤ buf.length) :
    (swap8 buf).length = buf.length := by
  rw [swap8_eq buf h]
  simp [Nat.min_eq_left h]
  omega

theorem swap8_swap8 (buf : List Byte) (h : 8 ≤ buf.length) :
    swap8 (swap8 buf) = buf := by
  rw [swap8_eq buf h, swap8_eq _ (by rw [← swap8_eq buf h, swap8_length buf h]; exact h)]
  have hlen : (buf.take 8).reverse.length = 8 := by simp [Nat.min_eq_left h]
  rw [List.take_append_of_le_length (by omega), List.drop_append_of_le_length (by omega)]
  rw [List.take_of_length_le (by omega), List.drop_of_length_le (by omega)]
  simp [List.take_append_drop]

theorem read64_swap8 (buf : List Byte) (h : 8 ≤ buf.length) :
    read64 (swap8 buf) = leVal (buf.take 8).reverse := by
  rw [swap8_eq buf h]
  unfold read64
  rw [List.take_append_of_le_length (by simp [Nat.min_eq_left h]),
    List.take_of_length_le (by simp [Nat.min_eq_left h])]

/-! The NUL-terminated names inside buffers, and the comparison windows. -/

theorem decide_eq_bool {p : Prop} [Decidable p] {b : Bool} (h : p ↔ b = true) :
    decide p = b := by
  cases b
  · simp only [Bool.false_eq_true, iff_false] at h
    exact decide_eq_false h
  · exact decide_eq_true (h.mpr rfl)

theorem lex_nul_window : ∀ (u v : List Byte) (k : Nat) (s t : List Byte),
    (∀ b ∈ u, b ≠ 0) → (∀ b ∈ v, b ≠ 0) → u ≠ v →
    u.length < k → v.length < k →
    lexLtB ((u ++ 0 :: s).take k) ((v ++ 0 :: t).take k) = lexLtB u v
  | [], [], _, _, _, _, _, hne, _, _ => absurd rfl hne
  | [], d :: v2, k, s, t, _, hv, _, huk, hvk => by
      obtain ⟨k2, rfl⟩ : ∃ k2, k = k2 + 1 := ⟨k - 1, by omega⟩
      rw [List.nil_append, List.cons_append, List.take_succ_cons,
        List.take_succ_cons, lexLtB_cons]
      have hd : d.val ≠ 0 := fun h0 => hv d (by simp) (Fin.ext (by simpa using h0))
      have h0 : decide ((0 : Byte).val < d.val) = true := by
        apply decide_eq_true
        show 0 < d.val
        omega
      rw [h0, Bool.true_or]
      rfl
  | c :: u2, [], k, s, t, hu, _, _, huk, hvk => by
      obtain ⟨k2, rfl⟩ : ∃ k2, k = k2 + 1 := ⟨k - 1, by omega⟩
      rw [List.nil_append, List.cons_append, List.take_succ_cons,
        List.take_succ_cons, lexLtB_cons]
      have hc : c ≠ 0 := hu c (by simp)
      have h0 : decide (c.val < (0 : Byte).val) = false := by simp
      have h1 : (c == (0 : Byte)) = false := by simp [hc]
      rw [h0, h1, lexLtB_nil_right]
      rfl
  | c :: u2, d :: v2, k, s, t, hu, hv, hne, huk, hvk => by
      obtain ⟨k2, rfl⟩ : ∃ k2, k = k2 + 1 := ⟨k - 1, by omega⟩
      rw [List.cons_append, List.cons_append, List.take_succ_cons,
        List.take_succ_cons, lexLtB_cons, lexLtB_cons]
      by_cases hcd : c = d
      · subst hcd
        have hne2 : u2 ≠ v2 := fun h => hne (by rw [h])
        rw [lex_nul_window u2 v2 k2 s t (fun b hb => hu b (by simp [hb]))
          (fun b hb => hv b (by simp [hb])) hne2
          (by simp only [List.length_cons] at huk; omega)
          (by simp only [List.length_cons] at hvk; omega)]
      · have h1 : (c == d) = false := by simp [hcd]
        rw [h1]
        simp

theorem nameOf_mem_ne_zero : ∀ (buf : List Byte), ∀ b ∈ nameOf buf, b ≠ 0
  | [], b, hb => by simp [nameOf] at hb
  | x :: rest, b, hb => by
      by_cases hx : x = 0
      · subst hx
        have : nameOf ((0 : Byte) :: rest) = [] := by
          show List.takeWhile _ _ = []
          rw [List.takeWhile_cons, if_neg (by simp)]
        rw [this] at hb
        simp at hb
      · have : nameOf (x :: rest) = x :: nameOf rest := by
          show List.takeWhile _ _ = _
          rw [List.takeWhile_cons, if_pos (by simp [hx])]
          rfl
        rw [this] at hb
        rcases List.mem_cons.mp hb with rfl | hb
        · exact hx
        · exact nameOf_mem_ne_zero rest b hb

theorem nameOf_append : ∀ (u : List Byte), (∀ b ∈ u, b ≠ 0) → ∀ (r : List Byte),
    nameOf (u ++ 0 :: r) = u
  | [], _, r => by
      show List.takeWhile _ (0 :: r) = []
      rw [List.takeWhile_cons, if_neg (by simp)]
  | x :: xs, hu, r => by
      have hx : x ≠ 0 := hu x (by simp)
      show List.takeWhile _ (x :: (xs ++ 0 :: r)) = x :: xs
      rw [List.takeWhile_cons, if_pos (by simp [hx])]
      exact congrArg (x :: ·) (nameOf_append xs (fun b hb => hu b (by simp [hb])) r)

theorem buf_decomp : ∀ (buf : List Byte), (nameOf buf).length < buf.length →
    ∃ r, buf = nameOf buf ++ 0 :: r
  | [], h => by simp [nameOf] at h
  | x :: rest, h => by
      by_cases hx : x = 0
      · subst hx
        have h0 : nameOf ((0 : Byte) :: rest) = [] := by
          show List.takeWhile _ _ = []
          rw [List.takeWhile_cons, if_neg (by simp)]
        exact ⟨rest, by rw [h0]; rfl⟩
      · have h1 : nameOf (x :: rest) = x :: nameOf rest := by
          show List.takeWhile _ _ = _
          rw [List.takeWhile_cons, if_pos (by simp [hx])]
          rfl
        rw [h1] at h ⊢
        obtain ⟨r, hr⟩ := buf_decomp rest (by simp only [List.length_cons] at h; omega)
        exact ⟨r, by rw [List.cons_append, ← hr]⟩

theorem beq_val_iff (x y : Byte) : (x.val == y.val) = (x == y) := by
  by_cases h : x = y
  · subst h
    rw [beq_self_eq_true, beq_self_eq_true]
  · have hv : x.val ≠ y.val := fun h0 => h (Fin.ext h0)
    rw [beq_eq_false_iff_ne.mpr hv, beq_eq_false_iff_ne.mpr h]

theorem Dots_eq : ∀ (u : List Byte), (∀ b ∈ u, b ≠ 0) → ∀ (r : List Byte),
    Dots (u ++ 0 :: r) = DotsName u
  | [], _, r => by
      show Dots (0 :: r) = DotsName []
      have h0 : byteAt ((0 : Byte) :: r) 0 = 0 := by simp [byteAt]
      unfold Dots
      rw [h0]
      rfl
  | [x], _, r => by
      show Dots (x :: 0 :: r) = DotsName [x]
      have h0 : byteAt (x :: 0 :: r) 0 = x.val := by simp [byteAt]
      have h1 : byteAt (x :: 0 :: r) 1 = 0 := by simp [byteAt]
      unfold Dots
      rw [h0, h1]
      rw [show ((0 : Nat) == 0) = true from rfl, Bool.true_or, Bool.and_true]
      show (x.val == 46) = (x == 46)
      rw [show (46 : Nat) = (46 : Byte).val from rfl, beq_val_iff]
  | [x, y], hu, r => by
      show Dots (x :: y :: 0 :: r) = DotsName [x, y]
      have h0 : byteAt (x :: y :: 0 :: r) 0 = x.val := by simp [byteAt]
      have h1 : byteAt (x :: y :: 0 :: r) 1 = y.val := by simp [byteAt]
      have h2 : byteAt (x :: y :: 0 :: r) 2 = 0 := by simp [byteAt]
      have hy : y.val ≠ 0 := fun h00 => hu y (by simp) (Fin.ext (by simpa using h00))
      unfold Dots
      rw [h0, h1, h2]
      rw [show ((0 : Nat) == 0) = true from rfl, Bool.and_true,
        beq_eq_false_iff_ne.mpr hy, Bool.false_or]
      show (x.val == 46 && y.val == 46) = (x == 46 && y == 46)
      rw [show (46 : Nat) = (46 : Byte).val from rfl, beq_val_iff, beq_val_iff]
  | x :: y :: z :: w, hu, r => by
      show Dots (x :: y :: z :: (w ++ 0 :: r)) = DotsName (x :: y :: z :: w)
      have h1 : byteAt (x :: y :: z :: (w ++ 0 :: r)) 1 = y.val := by simp [byteAt]
      have h2 : byteAt (x :: y :: z :: (w ++ 0 :: r)) 2 = z.val := by simp [byteAt]
      have hy : y.val ≠ 0 := fun h00 => hu y (by simp) (Fin.ext (by simpa using h00))
      have hz : z.val ≠ 0 := fun h00 => hu z (by simp) (Fin.ext (by simpa using h00))
      unfold Dots
      rw [h1, h2]
      rw [beq_eq_false_iff_ne.mpr hy, beq_eq_false_iff_ne.mpr hz, Bool.and_false,
        Bool.or_false, Bool.and_false]
      rfl

/-! Equivalence of the fast-path comparator with byte-wise name comparison. -/

theorem fastLt_swap (a b : List Byte) (ha : 261 ≤ a.length) (hb : 261 ≤ b.length) :
    fastLtB (swap8 a) (swap8 b) = lexLtB (a.take 261) (b.take 261) := by
  have h8a : 8 ≤ a.length := by omega
  have h8b : 8 ≤ b.length := by omega
  have hta : (a.take 8).length = 8 := by simp [Nat.min_eq_left h8a]
  have htb : (b.take 8).length = 8 := by simp [Nat.min_eq_left h8b]
  have hlt : decide (read64 (swap8 a) < read64 (swap8 b)) =
      lexLtB (a.take 8) (b.take 8) := by
    rw [read64_swap8 a h8a, read64_swap8 b h8b]
    exact decide_eq_bool (leVal_rev_lt_iff (by rw [hta, htb]))
  have heq : decide (read64 (swap8 a) = read64 (swap8 b)) =
      (a.take 8 == b.take 8) := by
    rw [read64_swap8 a h8a, read64_swap8 b h8b]
    apply decide_eq_bool
    rw [leVal_rev_eq_iff (by rw [hta, htb])]
    exact Iff.symm beq_iff_eq
  have hwin : ∀ (c : List Byte), 8 ≤ c.length →
      ((swap8 c).drop 5).take 256 =
        (c.take 8).reverse.drop 5 ++ (c.drop 8).take 253 := by
    intro c hc
    have htc : (c.take 8).length = 8 := by simp [Nat.min_eq_left hc]
    have hrev : (c.take 8).reverse.length = 8 := by simp [htc]
    rw [swap8_eq c hc, List.drop_append_of_le_length (by omega)]
    have h3 : ((c.take 8).reverse.drop 5).length = 3 := by simp [hrev]
    rw [show (256 : Nat) = ((c.take 8).reverse.drop 5).length + 253 by rw [h3],
      List.take_append]
  unfold fastLtB
  rw [hlt, heq,
    show (261 : Nat) = 8 + 253 by norm_num, List.take_add, List.take_add,
    lexLtB_append_eqlen (show (List.take 8 a).length = (List.take 8 b).length by
      rw [hta, htb]) (List.take 253 (List.drop 8 a)) (List.take 253 (List.drop 8 b)),
    hwin a h8a, hwin b h8b]
  cases hE : (List.take 8 a == List.take 8 b) with
  | false => simp
  | true =>
      have he8 : List.take 8 a = List.take 8 b := eq_of_beq hE
      rw [he8, lexLtB_append_eqlen
        (rfl : (List.drop 5 (List.take 8 b).reverse).length =
          (List.drop 5 (List.take 8 b).reverse).length)
        (List.take 253 (List.drop 8 a)) (List.take 253 (List.drop 8 b))]
      simp [lexLtB_irrefl]

theorem validBuf_parts {buf : List Byte} (h : validBuf buf = true) :
    (nameOf buf).length ≤ 255 ∧ 261 ≤ buf.length := by
  simpa [validBuf] using h

theorem take261_lex (a b : List Byte)
    (hna : (nameOf a).length ≤ 255) (ha : 261 ≤ a.length)
    (hnb : (nameOf b).length ≤ 255) (hb : 261 ≤ b.length)
    (hne : nameOf a ≠ nameOf b) :
    lexLtB (a.take 261) (b.take 261) = lexLtB (nameOf a) (nameOf b) := by
  obtain ⟨ra, hra⟩ := buf_decomp a (by omega)
  obtain ⟨rb, hrb⟩ := buf_decomp b (by omega)
  have key := lex_nul_window (nameOf a) (nameOf b) 261 ra rb
    (nameOf_mem_ne_zero a) (nameOf_mem_ne_zero b) hne (by omega) (by omega)
  rw [← hra, ← hrb] at key
  exact key

theorem fastLt_name (a b : List Byte) (hva : validBuf a = true)
    (hvb : validBuf b = true) (hne : nameOf a ≠ nameOf b) :
    fastLtB (swap8 a) (swap8 b) = lexLtB (nameOf a) (nameOf b) := by
  obtain ⟨ha1, ha2⟩ := validBuf_parts hva
  obtain ⟨hb1, hb2⟩ := validBuf_parts hvb
  rw [fastLt_swap a b ha2 hb2, take261_lex a b ha1 ha2 hb1 hb2 hne]

/-! The comparators are strict weak orders, globally, so std::sort sorts. -/

theorem fastLtB_iff {a b : List Byte} : fastLtB a b = true ↔
    (read64 a < read64 b ∨ (read64 a = read64 b ∧
      lexLtB ((a.drop 5).take 256) ((b.drop 5).take 256) = true)) := by
  simp [fastLtB, Bool.or_eq_true, Bool.and_eq_true, decide_eq_true_eq]

theorem fastLtB_false_elim {a b : List Byte} (h : fastLtB a b = false) :
    read64 b ≤ read64 a ∧ (read64 a = read64 b →
      lexLtB ((a.drop 5).take 256) ((b.drop 5).take 256) = false) := by
  constructor
  · by_contra hc
    rw [fastLtB_iff.mpr (Or.inl (by omega))] at h
    exact absurd h (by simp)
  · intro he
    cases hl : lexLtB ((a.drop 5).take 256) ((b.drop 5).take 256)
    · rfl
    · rw [fastLtB_iff.mpr (Or.inr ⟨he, hl⟩)] at h
      exact absurd h (by simp)

theorem fastLtB_neg_trans {a b c : List Byte} (h1 : fastLtB b a = false)
    (h2 : fastLtB c b = false) : fastLtB c a = false := by
  obtain ⟨hab, hab2⟩ := fastLtB_false_elim h1
  obtain ⟨hbc, hbc2⟩ := fastLtB_false_elim h2
  cases hf : fastLtB c a
  · rfl
  · exfalso
    rcases fastLtB_iff.mp hf with hlt | ⟨heq, hlex⟩
    · omega
    · have e1 : read64 b = read64 a := by omega
      have e2 : read64 c = read64 b := by omega
      have g1 := hab2 e1
      have g2 := hbc2 e2
      cases hl : lexLtB ((a.drop 5).take 256) ((b.drop 5).take 256)
      · have := lexLtB_connex g1 hl
        rw [← this] at hlex
        rw [g2] at hlex
        exact absurd hlex (by simp)
      · have := lexLtB_trans hlex hl
        rw [g2] at this
        exact absurd this (by simp)

theorem leTrue_trans (a b c : List Byte) (h1 : (!fastLtB b a) = true)
    (h2 : (!fastLtB c b) = true) : (!fastLtB c a) = true := by
  rw [Bool.not_eq_true'] at h1 h2 ⊢
  exact fastLtB_neg_trans h1 h2

theorem leTrue_total (a b : List Byte) :
    ((!fastLtB b a) || (!fastLtB a b)) = true := by
  cases h : fastLtB b a
  · rfl
  · rcases fastLtB_iff.mp h with hlt | ⟨heq, hlex⟩
    · have : fastLtB a b = false := by
        cases hf : fastLtB a b
        · rfl
        · rcases fastLtB_iff.mp hf with h2 | ⟨h2, _⟩ <;> omega
      rw [this]
      rfl
    · have : fastLtB a b = false := by
        cases hf : fastLtB a b
        · rfl
        · rcases fastLtB_iff.mp hf with h2 | ⟨h2, hlex2⟩
          · omega
          · rw [lexLtB_asymm hlex] at hlex2
            exact absurd hlex2 (by simp)
      rw [this]
      rfl

theorem keyLe_trans (f : List Byte → List Byte) (a b c : List Byte)
    (h1 : (!lexLtB (f b) (f a)) = true) (h2 : (!lexLtB (f c) (f b)) = true) :
    (!lexLtB (f c) (f a)) = true := by
  rw [Bool.not_eq_true'] at h1 h2 ⊢
  cases hy : lexLtB (f c) (f a)
  · rfl
  · exfalso
    cases hx : lexLtB (f a) (f b)
    · have := lexLtB_connex hx h1
      rw [this] at hy
      rw [hy] at h2
      exact absurd h2 (by simp)
    · have := lexLtB_trans hy hx
      rw [this] at h2
      exact absurd h2 (by simp)

theorem keyLe_total (f : List Byte → List Byte) (a b : List Byte) :
    ((!lexLtB (f b) (f a)) || (!lexLtB (f a) (f b))) = true := by
  cases h : lexLtB (f b) (f a)
  · rfl
  · rw [lexLtB_asymm h]
    rfl

/-! Unpacking the well-formedness predicates. -/

theorem wfEnt_parts {e : DirEnt} (h : wfEnt e = true) :
    e.misc.length = 16 ∧ 1 ≤ e.d_name.length ∧ e.d_name.length ≤ 255 ∧
    (∀ b ∈ e.d_name, b ≠ 0) ∧
    e.d_reclen = 19 + e.d_name.length + 1 + e.pad.length ∧ e.d_reclen % 8 = 0 := by
  simp only [wfEnt, Bool.and_eq_true, decide_eq_true_eq, List.all_eq_true] at h
  obtain ⟨⟨⟨⟨⟨h1, h2⟩, h3⟩, h4⟩, h5⟩, h6⟩ := h
  exact ⟨h1, h2, h3, h4, h5, h6⟩

theorem wfChunk_parts {recs : List DirEnt} {g : List Byte}
    (h : wfChunk recs g = true) :
    recs ≠ [] ∧ (∀ e ∈ recs, wfEnt e = true) ∧ chunkSize recs ≤ 8192 - 256 ∧
    chunkSize recs + g.length = 8192 := by
  simp only [wfChunk, Bool.and_eq_true, decide_eq_true_eq, List.all_eq_true] at h
  obtain ⟨⟨⟨h1, h2⟩, h3⟩, h4⟩ := h
  exact ⟨h1, h2, h3, h4⟩

theorem wfReads_head {r : ReadResult} {rest : List ReadResult}
    (h : wfReads (r :: rest) = true) : wfReads rest = true := by
  simp only [wfReads, List.all_cons, Bool.and_eq_true] at h ⊢
  exact h.2

theorem wfReads_chunk {recs : List DirEnt} {g : List Byte} {rest : List ReadResult}
    (h : wfReads (ReadResult.chunk recs g :: rest) = true) : wfChunk recs g = true := by
  simp only [wfReads, List.all_cons, Bool.and_eq_true] at h
  exact h.1

theorem wfChunk_size_pos {recs : List DirEnt} {g : List Byte}
    (h : wfChunk recs g = true) : 0 < chunkSize recs := by
  obtain ⟨hne, hents, _, _⟩ := wfChunk_parts h
  cases recs with
  | nil => exact absurd rfl hne
  | cons e r2 =>
      obtain ⟨_, _, _, _, h5, _⟩ := wfEnt_parts (hents e (by simp))
      simp only [chunkSize, List.map_cons, List.sum_cons]
      omega

/-! Byte counts and entry layout of one well-formed chunk. -/

theorem serializeEnt_length {e : DirEnt} (h : wfEnt e = true) :
    (serializeEnt e).length = e.d_reclen := by
  obtain ⟨h1, _, _, _, h5, _⟩ := wfEnt_parts h
  simp only [serializeEnt, List.length_append, List.length_cons, List.length_nil, h1]
  omega

theorem chunkBuf_length : ∀ (recs : List DirEnt) (g : List Byte),
    (∀ e ∈ recs, wfEnt e = true) →
    (chunkBuf recs g).length = chunkSize recs + g.length
  | [], g, _ => by simp [chunkBuf, chunkSize]
  | e :: rest, g, h => by
      show (serializeEnt e ++ chunkBuf rest g).length = _
      rw [List.length_append, serializeEnt_length (h e (by simp)),
        chunkBuf_length rest g (fun x hx => h x (by simp [hx]))]
      simp only [chunkSize, List.map_cons, List.sum_cons]
      omega

theorem chunkEntries_length : ∀ (recs : List DirEnt) (g : List Byte),
    (∀ e ∈ recs, wfEnt e = true) → 256 ≤ g.length →
    ∀ en ∈ chunkEntries recs g, 261 ≤ en.length
  | [], _, _, _ => by simp [chunkEntries]
  | e :: rest, g, h, hg => by
      intro en hen
      unfold chunkEntries at hen
      rcases List.mem_append.mp hen with hmem | hmem
      · by_cases hd : Dots (e.d_name ++ 0 :: (e.pad ++ chunkBuf rest g)) = true
        · rw [if_pos hd] at hmem
          simp at hmem
        · rw [if_neg hd] at hmem
          have heq : en = e.d_name ++ 0 :: (e.pad ++ chunkBuf rest g) :=
            List.mem_singleton.mp hmem
          obtain ⟨_, hn1, _, _, h5, h6⟩ := wfEnt_parts (h e (by simp))
          have hcb := chunkBuf_length rest g (fun x hx => h x (by simp [hx]))
          rw [heq]
          simp only [List.length_append, List.length_cons, hcb]
          omega
      · exact chunkEntries_length rest g (fun x hx => h x (by simp [hx])) hg en hmem

theorem chunkEntries_names : ∀ (recs : List DirEnt) (g : List Byte),
    (∀ e ∈ recs, wfEnt e = true) →
    (chunkEntries recs g).map nameOf =
      (recs.map DirEnt.d_name).filter (fun n => !DotsName n)
  | [], _, _ => rfl
  | e :: rest, g, h => by
      have hz : ∀ b ∈ e.d_name, b ≠ 0 := (wfEnt_parts (h e (by simp))).2.2.2.1
      have hdots := Dots_eq e.d_name hz (e.pad ++ chunkBuf rest g)
      have hname := nameOf_append e.d_name hz (e.pad ++ chunkBuf rest g)
      unfold chunkEntries
      rw [List.map_append, chunkEntries_names rest g (fun x hx => h x (by simp [hx])),
        List.map_cons, List.filter_cons, hdots]
      cases hd : DotsName e.d_name with
      | true => simp [hd]
      | false => simp [hd, hname]

/-! The read loop over a whole stream. -/

theorem readAll_acc (reads : List ReadResult) (acc : List (List Byte)) :
    readAll reads acc = Option.map (fun es => acc ++ es) (readAll reads []) := by
  induction reads generalizing acc with
  | nil => simp [readAll]
  | cons r rest ih =>
      cases r with
      | fail => simp [readAll]
      | chunk recs g =>
          by_cases h0 : chunkSize recs = 0
          · simp [readAll, h0]
          · simp only [readAll, if_neg h0]
            rw [List.nil_append, ih (acc ++ chunkEntries recs g),
              ih (chunkEntries recs g)]
            cases readAll rest [] <;> simp

theorem readAll_wf : ∀ (reads : List ReadResult), wfReads reads = true →
    ∀ es, readAll reads [] = some es → es = allEntries reads
  | [], _, es, h => by
      simp only [readAll, Option.some.injEq] at h
      simp [allEntries, ← h]
  | ReadResult.fail :: rest, _, es, h => by
      simp [readAll] at h
  | ReadResult.chunk recs g :: rest, hwf, es, h => by
      have hwfc := wfReads_chunk hwf
      have hwfr := wfReads_head hwf
      have hpos : ¬ chunkSize recs = 0 := by
        have := wfChunk_size_pos hwfc
        omega
      simp only [readAll, if_neg hpos, List.nil_append] at h
      rw [readAll_acc rest (chunkEntries recs g)] at h
      cases hx : readAll rest [] with
      | none => rw [hx] at h; simp at h
      | some es0 =>
          rw [hx] at h
          simp only [Option.map_some', Option.some.injEq] at h
          rw [readAll_wf rest hwfr es0 hx] at h
          rw [← h]
          simp [allEntries]

theorem readAll_mem : ∀ (reads : List ReadResult) (es : List (List Byte)),
    readAll reads [] = some es → ∀ x ∈ es, ∃ recs g,
      ReadResult.chunk recs g ∈ reads ∧ x ∈ chunkEntries recs g
  | [], es, h => by
      simp only [readAll, Option.some.injEq] at h
      intro x hx
      rw [← h] at hx
      simp at hx
  | ReadResult.fail :: rest, es, h => by simp [readAll] at h
  | ReadResult.chunk recs g :: rest, es, h => by
      by_cases h0 : chunkSize recs = 0
      · simp only [readAll, if_pos h0, Option.some.injEq] at h
        intro x hx
        rw [← h] at hx
        simp at hx
      · simp only [readAll, if_neg h0, List.nil_append] at h
        rw [readAll_acc rest (chunkEntries recs g)] at h
        cases hx : readAll rest [] with
        | none => rw [hx] at h; simp at h
        | some es0 =>
            rw [hx] at h
            simp only [Option.map_some', Option.some.injEq] at h
            intro x hmem
            rw [← h] at hmem
            rcases List.mem_append.mp hmem with hm | hm
            · exact ⟨recs, g, by simp, hm⟩
            · obtain ⟨r2, g2, hr2, hx2⟩ := readAll_mem rest es0 hx x hm
              exact ⟨r2, g2, by simp [hr2], hx2⟩

theorem wf_entry_261 (reads : List ReadResult) (hwf : wfReads reads = true)
    (es : List (List Byte)) (h : readAll reads [] = some es) :
    ∀ x ∈ es, 261 ≤ x.length := by
  intro x hx
  obtain ⟨recs, g, hmem, hxe⟩ := readAll_mem reads es h x hx
  have hwfc : wfChunk recs g = true := by
    have := List.all_eq_true.mp hwf _ hmem
    simpa using this
  obtain ⟨_, hents, h3, h4⟩ := wfChunk_parts hwfc
  exact chunkEntries_length recs g hents (by omega) x hxe

theorem min8_entries (reads : List ReadResult) (hm : entriesMin8 reads = true)
    (es : List (List Byte)) (h : readAll reads [] = some es) :
    ∀ x ∈ es, 8 ≤ x.length := by
  intro x hx
  obtain ⟨recs, g, hmem, hxe⟩ := readAll_mem reads es h x hx
  have := List.all_eq_true.mp hm _ hmem
  simp only [List.all_eq_true, decide_eq_true_eq] at this
  exact this x hxe

theorem allEntries_names : ∀ (reads : List ReadResult), wfReads reads = true →
    (allEntries reads).map nameOf = (allNames reads).filter (fun n => !DotsName n)
  | [], _ => rfl
  | ReadResult.fail :: rest, hwf => by
      simp only [allEntries, allNames, List.flatMap_cons, List.nil_append]
      exact allEntries_names rest (wfReads_head hwf)
  | ReadResult.chunk recs g :: rest, hwf => by
      obtain ⟨_, hents, _, _⟩ := wfChunk_parts (wfReads_chunk hwf)
      simp only [allEntries, allNames, List.flatMap_cons, List.map_append,
        List.filter_append]
      rw [chunkEntries_names recs g hents]
      have := allEntries_names rest (wfReads_head hwf)
      simp only [allEntries, allNames] at this
      rw [this]

/-! SortEntries with the word trick: permutation and sortedness by names. -/

theorem sortTrue_perm (es : List (List Byte)) (h : ∀ e ∈ es, 8 ≤ e.length) :
    (SortEntriesTrue es).Perm es := by
  unfold SortEntriesTrue SwapBytes
  have hperm :=
    (List.mergeSort_perm (es.map swap8) (fun a b => !fastLtB b a)).map swap8
  refine hperm.trans ?_
  rw [List.map_map,
    show (swap8 ∘ swap8) = (fun e => swap8 (swap8 e)) from rfl,
    List.map_congr_left (fun e he => swap8_swap8 e (h e he)), List.map_id']

theorem sortTrue_sorted (es : List (List Byte)) (hval : ∀ e ∈ es, validBuf e = true)
    (hnd : (es.map nameOf).Nodup) :
    (SortEntriesTrue es).Pairwise
      (fun x y => lexLtB (nameOf x) (nameOf y) = true) := by
  have hlen : ∀ e ∈ es, 8 ≤ e.length := fun e he => by
    have := (validBuf_parts (hval e he)).2
    omega
  have hs : ((es.map swap8).mergeSort fun a b => !fastLtB b a).Pairwise
      (fun a b => (!fastLtB b a) = true) :=
    List.sorted_mergeSort (fun a b c => leTrue_trans a b c)
      (fun a b => leTrue_total a b) _
  have hmemL : ∀ x ∈ (es.map swap8).mergeSort (fun a b => !fastLtB b a),
      ∃ a, a ∈ es ∧ swap8 a = x := by
    intro x hx
    have hx2 : x ∈ es.map swap8 := (List.mergeSort_perm _ _).mem_iff.mp hx
    exact List.mem_map.mp hx2
  have np0 : es.Pairwise (fun a b => nameOf a ≠ nameOf b) := List.pairwise_map.mp hnd
  have npL : (es.map swap8).Pairwise
      (fun x y => nameOf (swap8 x) ≠ nameOf (swap8 y)) := by
    rw [List.pairwise_map]
    refine np0.imp_of_mem ?_
    intro a b ha hb hne
    rw [swap8_swap8 a (hlen a ha), swap8_swap8 b (hlen b hb)]
    exact hne
  have npM : ((es.map swap8).mergeSort fun a b => !fastLtB b a).Pairwise
      (fun x y => nameOf (swap8 x) ≠ nameOf (swap8 y)) := by
    refine ((List.mergeSort_perm (es.map swap8) _).pairwise_iff ?_).mpr npL
    intro x y hxy
    exact hxy.symm
  have target : ((es.map swap8).mergeSort fun a b => !fastLtB b a).Pairwise
      (fun x y => lexLtB (nameOf (swap8 x)) (nameOf (swap8 y)) = true) := by
    refine (hs.and npM).imp_of_mem ?_
    intro x y hx hy hxy
    obtain ⟨hle, hne⟩ := hxy
    obtain ⟨a, ha, rfl⟩ := hmemL x hx
    obtain ⟨b, hb, rfl⟩ := hmemL y hy
    rw [swap8_swap8 a (hlen a ha), swap8_swap8 b (hlen b hb)] at hne ⊢
    have hfa : fastLtB (swap8 b) (swap8 a) = false := by
      rw [Bool.not_eq_true'] at hle
      exact hle
    rw [fastLt_name b a (hval b hb) (hval a ha) (fun hh => hne hh.symm)] at hfa
    cases hl : lexLtB (nameOf a) (nameOf b)
    · exact absurd (lexLtB_connex hl hfa) hne
    · rfl
  unfold SortEntriesTrue SwapBytes
  rw [List.pairwise_map]
  exact target

/-! Remaining general lemmas feeding the claims. -/

theorem readAll_complete : ∀ (reads : List ReadResult),
    allChunksPositive reads = true → readAll reads [] = some (allEntries reads)
  | [], _ => rfl
  | ReadResult.fail :: rest, h => by
      have := List.all_eq_true.mp h ReadResult.fail (by simp)
      simp at this
  | ReadResult.chunk recs g :: rest, h => by
      have h1 : 0 < chunkSize recs := by
        simpa using List.all_eq_true.mp h (ReadResult.chunk recs g) (by simp)
      have hpos : ¬ chunkSize recs = 0 := by omega
      have hrest : allChunksPositive rest = true := by
        simp only [allChunksPositive, List.all_cons, Bool.and_eq_true] at h
        exact h.2
      simp only [readAll, if_neg hpos, List.nil_append]
      rw [readAll_acc rest (chunkEntries recs g), readAll_complete rest hrest]
      simp [allEntries]

theorem trace_getdents_only : ∀ (fd : Nat) (reads : List ReadResult),
    ∀ op ∈ listDirLinuxTrace fd reads, op = FdOp.getdents fd
  | fd, [], op, hop => by simpa [listDirLinuxTrace] using hop
  | fd, ReadResult.fail :: rest, op, hop => by
      simpa [listDirLinuxTrace] using hop
  | fd, ReadResult.chunk recs g :: rest, op, hop => by
      unfold listDirLinuxTrace at hop
      by_cases h0 : chunkSize recs = 0
      · rw [if_pos h0] at hop
        simpa using hop
      · rw [if_neg h0] at hop
        rcases List.mem_cons.mp hop with rfl | hop
        · rfl
        · exact trace_getdents_only fd rest op hop

theorem allNames_wf (reads : List ReadResult) (hwf : wfReads reads = true) :
    ∀ n ∈ allNames reads, n.length ≤ 255 := by
  intro n hn
  simp only [allNames, List.mem_flatMap] at hn
  obtain ⟨r, hr, hnr⟩ := hn
  cases r with
  | fail => simp at hnr
  | chunk recs g =>
      have hwfc : wfChunk recs g = true := by
        simpa using List.all_eq_true.mp hwf _ hr
      obtain ⟨_, hents, _, _⟩ := wfChunk_parts hwfc
      obtain ⟨e, he, rfl⟩ := List.mem_map.mp hnr
      exact (wfEnt_parts (hents e he)).2.2.1

/-! The claims. -/

/-- C2: for every call of ListDir, on either platform path, that returns
failure, the output list is empty on return, no matter how many entries had
already been read and pushed before the failing read; no partial results are
exposed. -/
theorem c2_failure_clears_output (reads : List ReadResult) (cs : Bool)
    (fdOk : Bool) (events : List PosixEvent) (prior : List (List Byte))
    (cs2 : Bool) :
    ((ListDir reads cs).1 = false → (ListDir reads cs).2 = []) ∧
    ((listDirPosix fdOk events prior cs2).ret = false →
      (listDirPosix fdOk events prior cs2).entries = []) := by
  constructor
  · intro h
    unfold ListDir at h ⊢
    cases hx : readAll reads [] with
    | none => rfl
    | some es => rw [hx] at h; exact Bool.noConfusion h
  · intro h
    cases fdOk with
    | false =>
        have hret : (listDirPosix false events prior cs2).ret = true := rfl
        rw [hret] at h
        exact absurd h (by simp)
    | true =>
        unfold listDirPosix at h ⊢
        rw [if_neg (by simp : ¬ (true = false))] at h ⊢
        cases hx : readPosixLoop events [] with
        | none => rfl
        | some es => rw [hx] at h; exact Bool.noConfusion h

theorem c2_witness :
    (ListDir [ReadResult.chunk [⟨List.replicate 16 0, 24, 0, [97], [0, 0, 0]⟩] [],
      ReadResult.fail] true).1 = false ∧
    (ListDir [ReadResult.chunk [⟨List.replicate 16 0, 24, 0, [97], [0, 0, 0]⟩] [],
      ReadResult.fail] true).2 = [] ∧
    (listDirPosix true [PosixEvent.entry 0 [98], PosixEvent.readFail]
      [[99, 0]] false).ret = false ∧
    (listDirPosix true [PosixEvent.entry 0 [98], PosixEvent.readFail]
      [[99, 0]] false).entries = [] :=
  ⟨by decide,
   (c2_failure_clears_output _ true true [] [] false).1 (by decide),
   by decide,
   (c2_failure_clears_output [] true true _ _ false).2 (by decide)⟩

/-- C4: refuted by the code (code bug). When fdopendir fails on the duplicated
descriptor, the portable path does close the duplicate, but then executes the
statement return -1 in a function whose return type is bool; the C++
int-to-bool conversion makes the returned boolean true, so the caller sees
success (with a stale, uncleared output vector), not the failure the claim
and the spec state. Evaluated at a concrete input. -/
theorem c4_fdopendir_failure_reports_success :
    listDirPosix false [] [[97, 0]] true =
      { ret := true, entries := [[97, 0]], dupClosed := true } := by decide

/-- C6: the fast path's read loop stops only at a literal zero-byte result:
whenever every call in the stream returns a positive byte count, however
small relative to the requested kBufSize - 256 bytes, every record of every
returned block is processed and another request is issued, so the loop drains
the whole stream and produces the complete entry set. -/
theorem c6_short_reads_do_not_stop (reads : List ReadResult)
    (h : allChunksPositive reads = true) :
    readAll reads [] = some (allEntries reads) := readAll_complete reads h

theorem c6_witness :
    allChunksPositive
      [ReadResult.chunk [⟨List.replicate 16 0, 7, 0, [97], []⟩] [],
       ReadResult.chunk [⟨List.replicate 16 0, 24, 0, [98], [0, 0, 0]⟩] []] = true ∧
    readAll
      [ReadResult.chunk [⟨List.replicate 16 0, 7, 0, [97], []⟩] [],
       ReadResult.chunk [⟨List.replicate 16 0, 24, 0, [98], [0, 0, 0]⟩] []] [] =
      some (allEntries
        [ReadResult.chunk [⟨List.replicate 16 0, 7, 0, [97], []⟩] [],
         ReadResult.chunk [⟨List.replicate 16 0, 24, 0, [98], [0, 0, 0]⟩] []]) :=
  ⟨by decide, c6_short_reads_do_not_stop _ (by decide)⟩

/-- C8: the in-place byte swap of each entry's 8-byte head is an involution
applied once before and once after the case-sensitive sort, so SortEntries
with kCaseSensitive = true returns a permutation of its input entries: the
bytes behind every pointer end up exactly as they started and only the order
of the pointers in the list changes. The hypothesis says 8 bytes are readable
behind each pointer, which the fast-path buffer layout guarantees. -/
theorem c8_swap_sort_swap_permutes (es : List (List Byte))
    (h : es.all (fun e => decide (8 ≤ e.length)) = true) :
    (SortEntriesTrue es).Perm es := by
  apply sortTrue_perm
  intro e he
  simpa using List.all_eq_true.mp h e he

theorem c8_witness :
    ([[0, 1, 2, 3, 4, 5, 6, 7], [9, 9, 9, 9, 9, 9, 9, 9, 9]] :
        List (List Byte)).all (fun e => decide (8 ≤ e.length)) = true ∧
    (SortEntriesTrue
        [[0, 1, 2, 3, 4, 5, 6, 7], [9, 9, 9, 9, 9, 9, 9, 9, 9]]).Perm
      [[0, 1, 2, 3, 4, 5, 6, 7], [9, 9, 9, 9, 9, 9, 9, 9, 9]] :=
  ⟨by decide, c8_swap_sort_swap_permutes _ (by decide)⟩

/-- C9 counterexample: the claim that the fast path duplicates the supplied
handle and closes the duplicate is false on the code. At descriptor 3 with
the empty stream, the fast path's whole operation trace is one getdents on
the original descriptor; it contains no dup and no close of any descriptor,
so no duplicate is created, operated on, or closed. -/
theorem c9_counterexample_no_dup :
    listDirLinuxTrace 3 [] = [FdOp.getdents 3] ∧
    (listDirLinuxTrace 3 []).all
      (fun op => match op with
        | FdOp.dup _ => false
        | FdOp.close _ => false
        | FdOp.getdents _ => true) = true := by decide

/-- C9 (amended): on the fast path, ListDir does not duplicate the supplied
directory handle and closes nothing: for every stream, every descriptor
operation it performs is a getdents on the original descriptor, so the
caller's handle is left unchanged and remains usable after the call. -/
theorem c9_amended_fast_path_keeps_original_handle (fd : Nat)
    (reads : List ReadResult) :
    (listDirLinuxTrace fd reads).all (fun op => op == FdOp.getdents fd) = true := by
  rw [List.all_eq_true]
  intro op hop
  rw [trace_getdents_only fd reads op hop]
  simp

/-- C10: for one fixed stream of enumeration results, ListDir with
caseSensitive = true and ListDir with caseSensitive = false return the same
success/failure outcome, and their output lists carry the same multiset of
names: the flag influences only the final ordering. -/
theorem c10_flag_changes_order_only (reads : List ReadResult)
    (h : entriesMin8 reads = true) :
    (ListDir reads true).1 = (ListDir reads false).1 ∧
    ((ListDir reads true).2.map nameOf).Perm
      ((ListDir reads false).2.map nameOf) := by
  unfold ListDir
  cases hx : readAll reads [] with
  | none => exact ⟨rfl, List.Perm.refl _⟩
  | some es =>
      refine ⟨rfl, ?_⟩
      have h1 : (SortEntriesTrue es).Perm es :=
        sortTrue_perm es (min8_entries reads h es hx)
      have h2 : (SortEntriesFalse es).Perm es := List.mergeSort_perm es _
      exact (h1.map nameOf).trans ((h2.map nameOf).symm)

theorem c10_witness :
    entriesMin8
      [ReadResult.chunk [⟨List.replicate 16 0, 24, 0, [97], [0, 0, 0]⟩]
        [0, 0, 0]] = true ∧
    ((ListDir [ReadResult.chunk [⟨List.replicate 16 0, 24, 0, [97], [0, 0, 0]⟩]
        [0, 0, 0]] true).1 =
      (ListDir [ReadResult.chunk [⟨List.replicate 16 0, 24, 0, [97], [0, 0, 0]⟩]
        [0, 0, 0]] false).1 ∧
    ((ListDir [ReadResult.chunk [⟨List.replicate 16 0, 24, 0, [97], [0, 0, 0]⟩]
        [0, 0, 0]] true).2.map nameOf).Perm
      ((ListDir [ReadResult.chunk [⟨List.replicate 16 0, 24, 0, [97], [0, 0, 0]⟩]
        [0, 0, 0]] false).2.map nameOf)) :=
  ⟨by decide, c10_flag_changes_order_only _ (by decide)⟩

/-- C3: with caseSensitive = true, on buffers satisfying the fast-path layout
guarantees (261 readable bytes behind each pointer, names of at most 255
bytes) with pairwise distinct names, the specialized comparator applied to
the byte-swapped buffers decides exactly byte-wise lexicographic comparison
of the NUL-terminated names, and consequently the list SortEntries returns is
ordered by byte-wise comparison of names. -/
theorem c3_word_comparator_matches_byte_order (a b : List Byte)
    (es : List (List Byte)) (hva : validBuf a = true) (hvb : validBuf b = true)
    (hne : nameOf a ≠ nameOf b) (hval : es.all validBuf = true)
    (hnd : (es.map nameOf).Nodup) :
    fastLtB (swap8 a) (swap8 b) = lexLtB (nameOf a) (nameOf b) ∧
    (SortEntriesTrue es).Pairwise
      (fun x y => lexLtB (nameOf x) (nameOf y) = true) :=
  ⟨fastLt_name a b hva hvb hne,
   sortTrue_sorted es (fun e he => List.all_eq_true.mp hval e he) hnd⟩

set_option maxRecDepth 8000 in
theorem c3_witness :
    validBuf ((97 : Byte) :: 0 :: List.replicate 259 1) = true ∧
    validBuf ((98 : Byte) :: 0 :: List.replicate 259 1) = true ∧
    nameOf ((97 : Byte) :: 0 :: List.replicate 259 1) ≠
      nameOf ((98 : Byte) :: 0 :: List.replicate 259 1) ∧
    ([(97 : Byte) :: 0 :: List.replicate 259 1,
      (98 : Byte) :: 0 :: List.replicate 259 1].all validBuf = true) ∧
    ([(97 : Byte) :: 0 :: List.replicate 259 1,
      (98 : Byte) :: 0 :: List.replicate 259 1].map nameOf).Nodup ∧
    (fastLtB (swap8 ((97 : Byte) :: 0 :: List.replicate 259 1))
        (swap8 ((98 : Byte) :: 0 :: List.replicate 259 1)) =
      lexLtB (nameOf ((97 : Byte) :: 0 :: List.replicate 259 1))
        (nameOf ((98 : Byte) :: 0 :: List.replicate 259 1)) ∧
     (SortEntriesTrue [(97 : Byte) :: 0 :: List.replicate 259 1,
        (98 : Byte) :: 0 :: List.replicate 259 1]).Pairwise
       (fun x y => lexLtB (nameOf x) (nameOf y) = true)) :=
  ⟨by decide, by decide, by decide, by decide, by decide,
   c3_word_comparator_matches_byte_order _ _ _ (by decide) (by decide)
     (by decide) (by decide) (by decide)⟩

/-- C5: for every well-formed stream and both values of the case-sensitivity
flag, the output list of ListDir never contains an entry whose name is "." or
"..". -/
theorem c5_no_dot_entries (reads : List ReadResult) (cs : Bool)
    (hwf : wfReads reads = true) :
    (ListDir reads cs).2.all (fun e => !DotsName (nameOf e)) = true := by
  unfold ListDir
  cases hx : readAll reads [] with
  | none => rfl
  | some es =>
      have hes := readAll_wf reads hwf es hx
      have h261 := wf_entry_261 reads hwf es hx
      have hnames : es.map nameOf =
          (allNames reads).filter (fun n => !DotsName n) := by
        rw [hes]
        exact allEntries_names reads hwf
      have hperm : (if cs = true then SortEntriesTrue es
          else SortEntriesFalse es).Perm es := by
        cases cs with
        | true =>
            rw [if_pos rfl]
            exact sortTrue_perm es (fun e he => by have := h261 e he; omega)
        | false =>
            rw [if_neg (by simp)]
            exact List.mergeSort_perm es _
      show (if cs = true then SortEntriesTrue es else SortEntriesFalse es).all
        (fun e => !DotsName (nameOf e)) = true
      rw [List.all_eq_true]
      intro e he
      have hmem : e ∈ es := hperm.mem_iff.mp he
      have hm2 : nameOf e ∈ es.map nameOf := List.mem_map_of_mem nameOf hmem
      rw [hnames] at hm2
      show (!DotsName (nameOf e)) = true
      have hg := @List.of_mem_filter _ _ _ _ hm2
      exact hg

theorem witnessChunk_wf :
    wfChunk [⟨List.replicate 16 0, 24, 0, [97], [0, 0, 0]⟩]
      (List.replicate 8168 0) = true := by
  unfold wfChunk
  rw [List.length_replicate]
  rfl

theorem witnessReads_wf :
    wfReads [ReadResult.chunk [⟨List.replicate 16 0, 24, 0, [97], [0, 0, 0]⟩]
      (List.replicate 8168 0)] = true := by
  simp only [wfReads, List.all_cons, List.all_nil, Bool.and_true]
  exact witnessChunk_wf

theorem witnessReads_readAll :
    readAll [ReadResult.chunk [⟨List.replicate 16 0, 24, 0, [97], [0, 0, 0]⟩]
      (List.replicate 8168 0)] [] =
      some (chunkEntries [⟨List.replicate 16 0, 24, 0, [97], [0, 0, 0]⟩]
        (List.replicate 8168 0)) := by
  unfold readAll
  rw [if_neg (show ¬ chunkSize
    [(⟨List.replicate 16 0, 24, 0, [97], [0, 0, 0]⟩ : DirEnt)] = 0 by decide)]
  show readAll []
    ([] ++ chunkEntries [⟨List.replicate 16 0, 24, 0, [97], [0, 0, 0]⟩]
      (List.replicate 8168 0)) = _
  rw [List.nil_append]
  rfl

theorem c5_witness :
    wfReads [ReadResult.chunk [⟨List.replicate 16 0, 24, 0, [97], [0, 0, 0]⟩]
      (List.replicate 8168 0)] = true ∧
    (ListDir [ReadResult.chunk [⟨List.replicate 16 0, 24, 0, [97], [0, 0, 0]⟩]
      (List.replicate 8168 0)] true).2.all
      (fun e => !DotsName (nameOf e)) = true :=
  ⟨witnessReads_wf, c5_no_dot_entries _ true witnessReads_wf⟩

/-- C7: under the kernel ABI well-formedness of the stream (records packed,
d_reclen 8-aligned and covering the 19 header bytes, the name, its NUL and
the padding, at most kBufSize - 256 = 7936 bytes written into each 8 KiB
allocation), every pointer the fast path pushes has at least 261 readable
bytes from it to the end of its own 8 KiB arena allocation, so the
case-sensitive comparator's fixed-size reads, 8 bytes at offset 0 and 256
bytes starting at offset 5 (final offset 260), never leave that
allocation. -/
theorem c7_comparator_reads_in_bounds (reads : List ReadResult)
    (hwf : wfReads reads = true) (es : List (List Byte))
    (h : readAll reads [] = some es) :
    es.all (fun e => decide (261 ≤ e.length) && decide (0 + 7 < e.length) &&
      decide (5 + 255 < e.length)) = true := by
  rw [List.all_eq_true]
  intro e he
  have h261 := wf_entry_261 reads hwf es h e he
  simp only [Bool.and_eq_true, decide_eq_true_eq]
  omega

theorem c7_witness :
    wfReads [ReadResult.chunk [⟨List.replicate 16 0, 24, 0, [97], [0, 0, 0]⟩]
      (List.replicate 8168 0)] = true ∧
    readAll [ReadResult.chunk [⟨List.replicate 16 0, 24, 0, [97], [0, 0, 0]⟩]
      (List.replicate 8168 0)] [] =
      some (chunkEntries [⟨List.replicate 16 0, 24, 0, [97], [0, 0, 0]⟩]
        (List.replicate 8168 0)) ∧
    (chunkEntries [⟨List.replicate 16 0, 24, 0, [97], [0, 0, 0]⟩]
      (List.replicate 8168 0)).all (fun e => decide (261 ≤ e.length) &&
      decide (0 + 7 < e.length) && decide (5 + 255 < e.length)) = true :=
  ⟨witnessReads_wf, witnessReads_readAll,
   c7_comparator_reads_in_bounds _ witnessReads_wf _ witnessReads_readAll⟩

/-- C1: for every well-formed stream whose records carry pairwise distinct
names (the kernel reports each child exactly once) and every call of ListDir
that returns success, the output's names are exactly the stream's record
names other than "." and "..", each occurring exactly once, and the output is
sorted according to the requested case sensitivity: byte-wise
lexicographically when caseSensitive = true, and by the spec-modelled
external case-insensitive comparator when caseSensitive = false. -/
theorem c1_success_exact_names_sorted (reads : List ReadResult) (cs : Bool)
    (hwf : wfReads reads = true) (hnd : (allNames reads).Nodup)
    (hok : (ListDir reads cs).1 = true) :
    ((ListDir reads cs).2.map nameOf).Perm
      ((allNames reads).filter (fun n => !DotsName n)) ∧
    ((ListDir reads cs).2.map nameOf).Nodup ∧
    (cs = true → (ListDir reads cs).2.Pairwise
      (fun x y => lexLtB (nameOf x) (nameOf y) = true)) ∧
    (cs = false → (ListDir reads cs).2.Pairwise
      (fun x y => strLtCi y x = false)) := by
  unfold ListDir at hok ⊢
  cases hx : readAll reads [] with
  | none => rw [hx] at hok; exact Bool.noConfusion hok
  | some es =>
      have hes := readAll_wf reads hwf es hx
      have h261 := wf_entry_261 reads hwf es hx
      have hnames : es.map nameOf =
          (allNames reads).filter (fun n => !DotsName n) := by
        rw [hes]
        exact allEntries_names reads hwf
      have hnd_es : (es.map nameOf).Nodup := by
        rw [hnames]
        exact hnd.filter _
      have hval : ∀ e ∈ es, validBuf e = true := by
        intro e he
        simp only [validBuf, Bool.and_eq_true, decide_eq_true_eq]
        refine ⟨?_, h261 e he⟩
        have hm2 : nameOf e ∈ es.map nameOf := List.mem_map_of_mem nameOf he
        rw [hnames] at hm2
        exact allNames_wf reads hwf _ (List.mem_of_mem_filter hm2)
      have hperm : (if cs = true then SortEntriesTrue es
          else SortEntriesFalse es).Perm es := by
        cases cs with
        | true =>
            rw [if_pos rfl]
            exact sortTrue_perm es (fun e he => by have := h261 e he; omega)
        | false =>
            rw [if_neg (by simp)]
            exact List.mergeSort_perm es _
      refine ⟨?_, ?_, ?_, ?_⟩
      · have hh := hperm.map nameOf
        rw [hnames] at hh
        exact hh
      · exact ((hperm.map nameOf).nodup_iff).mpr hnd_es
      · intro hcs
        subst hcs
        show (SortEntriesTrue es).Pairwise
          (fun x y => lexLtB (nameOf x) (nameOf y) = true)
        exact sortTrue_sorted es hval hnd_es
      · intro hcs
        subst hcs
        show (SortEntriesFalse es).Pairwise (fun x y => strLtCi y x = false)
        have hp : (SortEntriesFalse es).Pairwise
            (fun a b => (!strLtCi b a) = true) := by
          unfold SortEntriesFalse
          exact List.sorted_mergeSort
            (fun a b c h1 h2 =>
              keyLe_trans (fun x => (nameOf x).map lowerByte) a b c h1 h2)
            (fun a b => keyLe_total (fun x => (nameOf x).map lowerByte) a b) es
        refine hp.imp ?_
        intro a b hab
        rw [← Bool.not_eq_true']
        exact hab

theorem c1_witness :
    wfReads [ReadResult.chunk [⟨List.replicate 16 0, 24, 0, [97], [0, 0, 0]⟩]
      (List.replicate 8168 0)] = true ∧
    (allNames [ReadResult.chunk [⟨List.replicate 16 0, 24, 0, [97], [0, 0, 0]⟩]
      (List.replicate 8168 0)]).Nodup ∧
    (ListDir [ReadResult.chunk [⟨List.replicate 16 0, 24, 0, [97], [0, 0, 0]⟩]
      (List.replicate 8168 0)] true).1 = true ∧
    ((ListDir [ReadResult.chunk [⟨List.replicate 16 0, 24, 0, [97], [0, 0, 0]⟩]
        (List.replicate 8168 0)] true).2.map nameOf).Perm
      ((allNames [ReadResult.chunk [⟨List.replicate 16 0, 24, 0, [97], [0, 0, 0]⟩]
        (List.replicate 8168 0)]).filter (fun n => !DotsName n)) ∧
    ((ListDir [ReadResult.chunk [⟨List.replicate 16 0, 24, 0, [97], [0, 0, 0]⟩]
        (List.replicate 8168 0)] true).2.map nameOf).Nodup ∧
    (ListDir [ReadResult.chunk [⟨List.replicate 16 0, 24, 0, [97], [0, 0, 0]⟩]
        (List.replicate 8168 0)] true).2.Pairwise
      (fun x y => lexLtB (nameOf x) (nameOf y) = true) :=
  ⟨witnessReads_wf,
   by decide,
   by unfold ListDir; rw [witnessReads_readAll],
   (c1_success_exact_names_sorted _ true witnessReads_wf (by decide)
     (by unfold ListDir; rw [witnessReads_readAll])).1,
   (c1_success_exact_names_sorted _ true witnessReads_wf (by decide)
     (by unfold ListDir; rw [witnessReads_readAll])).2.1,
   (c1_success_exact_names_sorted _ true witnessReads_wf (by decide)
     (by unfold ListDir; rw [witnessReads_readAll])).2.2.1 rfl⟩

end Gitstatus
